import Mathlib

/-!
Verification development for the sedeuce stream editor (src/sedeuce/sed.py).

The Python source is shallowly embedded: byte strings (Python `bytes` /
`str`) become `List Char`, mutable objects become records threaded through
pure functions, `while` loops become fuel-indexed recursions (with theorems
showing that a concrete fuel bound always suffices), and fallible code
returns `Option` / `Except`.  The regular-expression engine is an external
collaborator of the source (Python `re`); it is abstracted as a function
`search : List Char -> Option (Nat, Nat)` returning the span of the first
match within a chunk, together with a replacement builder `repl` standing
for `re.sub(find, replace, match.group(0))`.
-/

set_option linter.unusedVariables false

/-- Byte strings of the Python source (`bytes` values and `str` values are
both modelled as lists of characters). -/
abbrev Bytes := List Char

/-- Whitespace set from sed.py line 43 (`WHITESPACE_CHARS`). -/
def WHITESPACE_CHARS : Bytes :=
  [' ', '\t', '\r', '\n', '\x0b', '\x0c', ' ', ' ', ' ', ' ',
   ' ', ' ', ' ', ' ', ' ', ' ', ' ', ' ',
   ' ', ' ', ' ', ' ', '　']

/-- Digit set from sed.py line 45 (`NUMBER_CHARS`). -/
def NUMBER_CHARS : Bytes := ['0', '1', '2', '3', '4', '5', '6', '7', '8', '9']

/-- Per-record byte cap from sed.py line 195 (`FileIterable.LINE_BYTE_LIMIT`). -/
def LINE_BYTE_LIMIT : Nat := 128 * 1024

/-- Model of Python `haystack.find(needle)` on bytes: index of the first
position where `pat` occurs as a contiguous sub-list, `none` for Python's
`-1`. -/
def findSubstr (pat : Bytes) : Bytes → Option Nat
  | [] => if pat = [] then some 0 else none
  | x :: rest =>
    if pat.isPrefixOf (x :: rest) then some 0
    else
      match findSubstr pat rest with
      | some i => some (i + 1)
      | none => none

/-!
Substitute command (`SubstituteCommand._handle`, sed.py lines 649-705).

`ReSearch` abstracts the external regex collaborator for one compiled
substitute command: `search chunk` models `re.search(self._find, chunk)`
as the span `(match.start(0), match.end(0))` of the first match inside
`chunk`, and `repl g` models the replacement text
`re.sub(self._find, self._replace, g)` computed from the matched text `g`
(source line 675).  The `e` flag's shell post-processing of the
replacement (lines 676-683) is outside a shallow embedding; `repl` stands
for whichever final replacement bytes the command produces for a match.
-/

structure ReSearch where
  search : Bytes → Option (Nat × Nat)
  repl : Bytes → Bytes

/-- Well-formedness guaranteed by Python `re.search`: a reported match span
lies inside the searched chunk, with start at or before end. -/
def SearchWF (S : ReSearch) : Prop :=
  ∀ chunk ms me, S.search chunk = some (ms, me) → ms ≤ me ∧ me ≤ chunk.length

/-- Flags of one substitute command that drive the matching loop:
`global_replace` (`g`), `nth_match` (decimal flag), and
`only_first_match` (`self._find_bytes.startswith(b'^')`, line 597). -/
structure SubFlags where
  global_replace : Bool
  nth_match : Option Nat
  only_first_match : Bool

/-- Line 673 of the source: whether the current match is applied
(`nth_match is None or (match_idx + 1) >= nth_match`). -/
def applyHere (nth : Option Nat) (matchIdx : Nat) : Bool :=
  match nth with
  | none => true
  | some n => decide (matchIdx + 1 ≥ n)

/-- Line 675: `new_str = re.sub(self._find, self._replace, match.group(0))`
where `match.group(0) = chunk[ms:me]`. -/
def newDatAt (S : ReSearch) (chunk : Bytes) (ms me : Nat) : Bytes :=
  S.repl (List.take (me - ms) (List.drop ms chunk))

/-- Line 686: `dat.pattern_space = dat.pattern_space[0:start] + new_dat +
dat.pattern_space[end:]` with `start = ms + offset`, `end = me + offset`. -/
def applyAt (S : ReSearch) (ps : Bytes) (offset : Nat) (chunk : Bytes) (ms me : Nat) : Bytes :=
  List.take (ms + offset) ps ++ newDatAt S chunk ms me ++ List.drop (me + offset) ps

/-- Lines 690 and 694-696 for an applied match: `offset = start +
len(new_dat)`, plus one more when the match was zero-width. -/
def applyOffset (S : ReSearch) (offset : Nat) (chunk : Bytes) (ms me : Nat) : Nat :=
  if ms + offset = me + offset then ms + offset + (newDatAt S chunk ms me).length + 1
  else ms + offset + (newDatAt S chunk ms me).length

/-- Lines 692 and 694-696 for a skipped match: `offset = end`, plus one more
when the match was zero-width. -/
def skipOffset (offset ms me : Nat) : Nat :=
  if ms + offset = me + offset then me + offset + 1 else me + offset

/-- The matching `while match:` loop of `SubstituteCommand._handle`
(lines 665-702), fuel-indexed.  Arguments mirror the loop state:
pattern space, `offset`, `next_chunk`, `match_idx`, `matched`, plus an
applied-substitution counter used to state the claims.  `none` means the
fuel ran out; the termination theorem shows `ps.length + 1` fuel always
suffices for a well-formed search. -/
def subMatchLoop (S : ReSearch) (nth : Option Nat) (g : Bool) :
    Nat → Bytes → Nat → Bytes → Nat → Bool → Nat → Option (Bytes × Bool × Nat)
  | 0, _, _, _, _, _, _ => none
  | Nat.succ fuel, ps, offset, chunk, matchIdx, matched, count =>
    match S.search chunk with
    | none => some (ps, matched, count)
    | some (ms, me) =>
      if applyHere nth matchIdx then
        if nth.isSome && !g then
          some (applyAt S ps offset chunk ms me, true, count + 1)
        else if chunk.isEmpty then
          some (applyAt S ps offset chunk ms me, true, count + 1)
        else
          subMatchLoop S nth g fuel (applyAt S ps offset chunk ms me)
            (applyOffset S offset chunk ms me)
            (List.drop (applyOffset S offset chunk ms me) (applyAt S ps offset chunk ms me))
            (matchIdx + 1) true (count + 1)
      else
        if chunk.isEmpty then some (ps, matched, count)
        else
          subMatchLoop S nth g fuel ps (skipOffset offset ms me)
            (List.drop (skipOffset offset ms me) ps) (matchIdx + 1) matched count

/-- `SubstituteCommand._handle` (lines 649-705): the nth-match adjustment
for `^`-anchored patterns (lines 650-662), then the matching loop from
`offset = 0`, `next_chunk = dat.pattern_space`.  Returns the final pattern
space, the `matched` flag (whether `_match_made` fires) and the number of
substitutions applied. -/
def SubstituteCommand_handle (S : ReSearch) (F : SubFlags) (fuel : Nat) (ps : Bytes) :
    Option (Bytes × Bool × Nat) :=
  if F.only_first_match &&
      (match F.nth_match with
       | some n => (decide (n = 0) && !F.global_replace) || decide (n > 1)
       | none => false) then
    some (ps, false, 0)
  else
    subMatchLoop S
      (if (if F.only_first_match && F.nth_match.isSome then some 1 else F.nth_match).isNone
          && !F.global_replace then some 1
       else (if F.only_first_match && F.nth_match.isSome then some 1 else F.nth_match))
      F.global_replace fuel ps 0 ps 0 false 0

/-!
Specification-side definitions for the claims about the `n` flag, written
from the spec's words: the matches of a line are enumerated sequentially
(after a skipped match the scan resumes past the match end, one byte
further for a zero-width match), `nthSeqMatch` returns the k-th such match
(1-based), and the spec substitution replaces exactly that span.
-/

/-- Position of the (k+1)-th sequential match, scanning from `offset`:
skips `k` matches using the source's advancement rule, then reports the
span of the next one (plus whether the chunk it was found in was empty,
which makes the source loop stop right after the substitution). -/
def nthSeqMatchAux (S : ReSearch) : Nat → Bytes → Nat → Nat → Option (Nat × Nat × Bool)
  | 0, _, _, _ => none
  | Nat.succ fuel, ps, offset, k =>
    match S.search (List.drop offset ps) with
    | none => none
    | some (ms, me) =>
      if k = 0 then some (ms + offset, me + offset, (List.drop offset ps).isEmpty)
      else if (List.drop offset ps).isEmpty then none
      else nthSeqMatchAux S fuel ps (skipOffset offset ms me) (k - 1)

/-- The k-th sequential match of the pattern in `ps` (1-based `k`). -/
def nthSeqMatch (S : ReSearch) (ps : Bytes) (k : Nat) : Option (Nat × Nat × Bool) :=
  nthSeqMatchAux S (ps.length + 1) ps 0 (k - 1)

/-- Replacing exactly the span `[s, e)` of `ps` with the replacement text
built from the matched bytes. -/
def specApply (S : ReSearch) (ps : Bytes) (s e : Nat) : Bytes :=
  List.take s ps ++ S.repl (List.take (e - s) (List.drop s ps)) ++ List.drop e ps

/-- Offset just past the inserted replacement (one further for a zero-width
match), from which a global substitution continues. -/
def specApplyOffset (S : ReSearch) (ps : Bytes) (s e : Nat) : Nat :=
  if s = e then s + (S.repl (List.take (e - s) (List.drop s ps))).length + 1
  else s + (S.repl (List.take (e - s) (List.drop s ps))).length

/-- Spec: with `n = k` and no `g`, exactly the k-th sequential match is
replaced and no others; if there are fewer than `k` matches, nothing
happens. -/
def substituteNthSpec (S : ReSearch) (k : Nat) (ps : Bytes) : Bytes × Bool × Nat :=
  match nthSeqMatch S ps k with
  | none => (ps, false, 0)
  | some (s, e, _) => (specApply S ps s e, true, 1)

/-- Spec: with `n = k` and `g`, the first `k - 1` sequential matches are
left untouched, the k-th is replaced, and then the loop continues exactly
as an unconditional global substitution over the rest of the line
(every subsequent match replaced). -/
def substituteNthGlobalSpec (S : ReSearch) (k : Nat) (ps : Bytes) : Option (Bytes × Bool × Nat) :=
  match nthSeqMatch S ps k with
  | none => some (ps, false, 0)
  | some (s, e, chunkEmpty) =>
    if chunkEmpty then some (specApply S ps s e, true, 1)
    else
      subMatchLoop S none true
        ((List.drop (specApplyOffset S ps s e) (specApply S ps s e)).length + 1)
        (specApply S ps s e) (specApplyOffset S ps s e)
        (List.drop (specApplyOffset S ps s e) (specApply S ps s e)) k true 1

/-- `re.search` specialised to a literal (metacharacter-free) find pattern:
the span of the first occurrence of `pat`. -/
def literalSearch (pat : Bytes) (s : Bytes) : Option (Nat × Nat) :=
  match findSubstr pat s with
  | some i => some (i, i + pat.length)
  | none => none

/-- The compiled command `s/am/sam;/`: literal find pattern `am`, literal
replacement `sam;` (so `re.sub` on the matched text is the constant). -/
def amSearch : ReSearch :=
  { search := literalSearch "am".data, repl := fun _ => "sam;".data }

/-- The input line of the spec's substitute examples. -/
def exLine1 : Bytes := "and I am am am using".data

/-- The compiled command `s/^a/b/`: Python `re.search(b'^a', chunk)`
matches span `(0, 1)` exactly when the chunk starts with `a` (without
`re.MULTILINE`, `^` only matches at the start of the searched string). -/
def anchSearch : ReSearch :=
  { search := fun s =>
      match s with
      | [] => none
      | c :: _ => if c = 'a' then some (0, 1) else none,
    repl := fun _ => ['b'] }

/-!
Execution state (`WorkingData`, sed.py lines 377-504) and the command/cycle
machinery needed for the `c`, `p`, `d`, `P`, `w`/`W` commands and the
per-file line numbering.  `output` models the bytes written to
`self.out_file`; `pattern_space` is modelled as the plain byte string that
is always present while commands run (the source sets it to `None` only
between cycles, and none of the modelled commands reads a new line
mid-cycle).
-/

/-- Jump targets stored in `dat.jump_to`: the source uses `-1` (jump to
end), `0` (jump to beginning) or a label string. -/
inductive JumpTo
  | toEnd
  | toStart
  | toLabel (name : Bytes)
deriving DecidableEq

structure WorkingData where
  newline : Bytes
  line_number : Nat
  pattern_modified : Bool
  file_modified : Bool
  insert_space : Option Bytes
  pattern_space : Bytes
  append_space : Option Bytes
  jump_to : Option JumpTo
  holdspace : Bytes
  output : Bytes
deriving DecidableEq

/-- `WorkingData.__init__` (lines 378-390). -/
def initWorkingData : WorkingData :=
  { newline := ['\n'], line_number := 0, pattern_modified := false, file_modified := false,
    insert_space := none, pattern_space := [], append_space := none, jump_to := none,
    holdspace := [], output := [] }

/-- The `pattern_space` property setter (lines 455-459): also raises the
modification flags. -/
def WorkingData.setPattern (dat : WorkingData) (b : Bytes) : WorkingData :=
  { dat with pattern_space := b, file_modified := true, pattern_modified := true }

/-- `print_bytes` (lines 491-493): write to the output sink and mark the
file modified. -/
def WorkingData.printBytes (dat : WorkingData) (b : Bytes) : WorkingData :=
  { dat with output := dat.output ++ b, file_modified := true }

/-- `_flush_insert_data` (lines 477-481). -/
def WorkingData.flushInsert (dat : WorkingData) : WorkingData :=
  match dat.insert_space with
  | none => dat
  | some i => { dat with file_modified := true, output := dat.output ++ i, insert_space := none }

/-- `flush_all_data` (lines 495-504): flush the insert queue, write the
pattern space, then flush the append queue.  (The separator logic of
`_flush_append_data` is vacuous here because the pattern space was just
written and cleared before the append flush runs.) -/
def WorkingData.flushAllData (dat : WorkingData) : WorkingData :=
  let d1 := dat.flushInsert
  let d2 : WorkingData :=
    { d1 with
      output := d1.output ++ d1.pattern_space
      pattern_modified := false
      pattern_space := [] }
  match d2.append_space with
  | none => d2
  | some a =>
    { d2 with file_modified := true, output := d2.output ++ a, append_space := none }

/-- `ReplaceCommand._handle` (`c` command, lines 821-826): replace the
pattern space with the stored literal text, re-appending the record
separator when the old pattern space ended with it.  Note: it sets no jump
target. -/
def ReplaceCommand_handle (replace : Bytes) (dat : WorkingData) : WorkingData :=
  match dat.newline.isSuffixOf dat.pattern_space with
  | add_newline =>
    match dat.setPattern replace with
    | dat2 => if add_newline then dat2.setPattern (dat2.pattern_space ++ dat2.newline) else dat2

/-- `PrintCommand._handle` (`p`, lines 1171-1172). -/
def PrintCommand_handle (dat : WorkingData) : WorkingData :=
  dat.printBytes dat.pattern_space

/-- `DeleteCommand._handle` (`d`, lines 853-855): clears the pattern space
and jumps to the end of the program. -/
def DeleteCommand_handle (dat : WorkingData) : WorkingData :=
  { dat.setPattern [] with jump_to := some JumpTo.toEnd }

/-- The bytes emitted by `PrintToNewlineCommand._handle` (`P`, lines
1192-1197): `ps + newline` when the separator does not occur, otherwise
`ps[:loc+1]` where `loc = ps.find(newline)`. -/
def printToNewlineBytes (newline ps : Bytes) : Bytes :=
  match findSubstr newline ps with
  | none => ps ++ newline
  | some loc => List.take (loc + 1) ps

/-- `PrintToNewlineCommand._handle` itself. -/
def PrintToNewlineCommand_handle (dat : WorkingData) : WorkingData :=
  dat.printBytes (printToNewlineBytes dat.newline dat.pattern_space)

/-- Closed command set for the modelled interpreter cycle. -/
inductive SedCmd
  | replaceCmd (txt : Bytes)
  | printCmd
  | deleteCmd
  | printToNewlineCmd
deriving DecidableEq

def SedCmd.handle : SedCmd → WorkingData → WorkingData
  | .replaceCmd txt, dat => ReplaceCommand_handle txt dat
  | .printCmd, dat => PrintCommand_handle dat
  | .deleteCmd, dat => DeleteCommand_handle dat
  | .printToNewlineCmd, dat => PrintToNewlineCommand_handle dat

/-- The per-line command loop of `Sed.execute` (lines 1669-1701), for
commands with no address condition: run command `i`, advance, and honour
`jump_to` (`-1` jumps past the last command, `0` restarts; label targets
are not produced by the modelled commands).  Fuel-indexed because jumps
can in general loop. -/
def runCycle (cmds : List SedCmd) : Nat → Nat → WorkingData → Option WorkingData
  | 0, _, _ => none
  | Nat.succ fuel, i, dat =>
    if h : i < cmds.length then
      match (cmds.get ⟨i, h⟩).handle dat with
      | dat2 =>
        match dat2.jump_to with
        | none => runCycle cmds fuel (i + 1) dat2
        | some JumpTo.toEnd => runCycle cmds fuel cmds.length { dat2 with jump_to := none }
        | some JumpTo.toStart => runCycle cmds fuel 0 { dat2 with jump_to := none }
        | some (JumpTo.toLabel _) => none
    else some dat

/-- One full cycle on one input record: load the record into the pattern
space (as `next_line` does), run the program, then `flush_all_data`
(line 1702).  Returns the bytes written to the output sink. -/
def runOneCycle (cmds : List SedCmd) (record : Bytes) : Option Bytes :=
  match runCycle cmds (cmds.length + 2) 0
      { initWorkingData with pattern_space := record, line_number := 1 } with
  | none => none
  | some dat => some dat.flushAllData.output

/-!
Per-file execution and line numbering (`Sed.execute`, lines 1649-1717, and
`WorkingData.set_in_file` / `next_line`, lines 392-416).  A single
`WorkingData` instance is constructed before the file loop (line 1655);
`set_in_file` resets only the file-modified flag and the input iterator,
and `next_line` increments `line_number` once per record.  The model below
runs an empty command program (commands do not affect the numbering) and
records the `line_number` value observed at each record of each file.
-/

/-- `WorkingData.set_in_file` (lines 392-396): resets `file_modified`; the
input iterator is handled by the caller in this model.  It does not touch
`line_number`. -/
def WorkingData.set_in_file (dat : WorkingData) : WorkingData :=
  { dat with file_modified := false }

/-- `WorkingData.next_line` (lines 402-416) specialised to a record already
read from the iterator: flush, load the record, clear the
pattern-modified flag, and increment the line number. -/
def WorkingData.next_line_with (dat : WorkingData) (record : Bytes) : WorkingData :=
  let d := dat.flushAllData
  { d with
    pattern_space := record
    pattern_modified := false
    line_number := d.line_number + 1 }

/-- The `while dat.next_line():` loop of `Sed.execute` for one input file
with an empty command program, recording the line number seen at each
record. -/
def runFileNumbers (dat : WorkingData) : List Bytes → WorkingData × List Nat
  | [] => (dat, [])
  | r :: rs =>
    let d := dat.next_line_with r
    let p := runFileNumbers d rs
    (p.1, d.line_number :: p.2)

/-- The `for file in files:` loop of `Sed.execute`: the same `WorkingData`
is carried from one file to the next, with only `set_in_file` applied in
between. -/
def executeNumbers (dat : WorkingData) : List (List Bytes) → List (List Nat)
  | [] => []
  | f :: fs =>
    let d := dat.set_in_file
    let p := runFileNumbers d f
    p.2 :: executeNumbers p.1 fs

/-- `Sed.execute` over a list of input files (each a list of records),
observing the per-record line numbers; `WorkingData()` is constructed once,
before the loop over files (line 1655). -/
def executeLineNumbers (files : List (List Bytes)) : List (List Nat) :=
  executeNumbers initWorkingData files

/-!
`StringParser` (sed.py lines 68-190): a string with an advancing read
position and a mark.  Positions are modelled as naturals (every position
reachable in the source's own usage is a natural; the property getter
clamps negatives to 0).  Python's partiality is made explicit:
`getItemInt` returns `none` where `self._s[val]` would raise `IndexError`,
and `getItemSlice` returns `none` where `__getitem__` would raise
`AttributeError` — `val.start += offset` / `val.stop += offset`
(lines 141, 143) assign to the read-only attributes of an immutable Python
`slice` object, so every slice access with an explicit bound raises; only
`[:]` (both bounds `None`) survives, and it returns the whole underlying
string `self._s[::]`, not a slice relative to the position. -/

structure StringParser where
  s : Bytes
  pos : Nat
  mark : Nat
deriving DecidableEq

/-- `StringParser(s)` — position 0, mark at position. -/
def mkParser (s : Bytes) : StringParser := { s := s, pos := 0, mark := 0 }

/-- `advance` (lines 104-107): move forward `inc` characters (no-op for 0). -/
def StringParser.advance (p : StringParser) (inc : Nat) : StringParser :=
  if 0 < inc then { p with pos := p.pos + inc } else p

/-- `advance_end` (lines 109-111). -/
def StringParser.advance_end (p : StringParser) : StringParser :=
  { p with pos := p.s.length }

/-- `mark()` (lines 82-83). -/
def StringParser.setMark (p : StringParser) : StringParser :=
  { p with mark := p.pos }

/-- `str_from` (lines 151-153): `self._s[pos:self._pos]`. -/
def StringParser.str_from (p : StringParser) (start : Nat) : Bytes :=
  (p.s.take p.pos).drop start

/-- `str_from_mark` (lines 155-156). -/
def StringParser.str_from_mark (p : StringParser) : Bytes :=
  p.str_from p.mark

/-- `__len__` (lines 158-163): remaining length, clamped at 0. -/
def StringParser.len (p : StringParser) : Nat := p.s.length - p.pos

/-- The scan of `advance_past` (lines 113-122): first index `i` at or after
`start` whose character is outside `cs`; fuel is the number of loop
iterations left (`len(s) - start` at the call). -/
def scanNotIn (s cs : Bytes) : Nat → Nat → Option Nat
  | _, 0 => none
  | i, Nat.succ rem =>
    match s[i]? with
    | none => none
    | some ch => if ch ∈ cs then scanNotIn s cs (i + 1) rem else some i

/-- The scan of `advance_until` (lines 124-133): first index at or after
`start` whose character is inside `cs`. -/
def scanIn (s cs : Bytes) : Nat → Nat → Option Nat
  | _, 0 => none
  | i, Nat.succ rem =>
    match s[i]? with
    | none => none
    | some ch => if ch ∈ cs then some i else scanIn s cs (i + 1) rem

/-- `advance_past` (lines 113-122): skip characters of `cs`; returns
whether the new position holds a character outside `cs` (`False` means the
scan ran to the end of the string). -/
def StringParser.advance_past (p : StringParser) (cs : Bytes) : Bool × StringParser :=
  match scanNotIn p.s cs p.pos (p.s.length - p.pos) with
  | some i => (true, { p with pos := i })
  | none => (false, { p with pos := p.s.length })

/-- `advance_until` (lines 124-133). -/
def StringParser.advance_until (p : StringParser) (cs : Bytes) : Bool × StringParser :=
  match scanIn p.s cs p.pos (p.s.length - p.pos) with
  | some i => (true, { p with pos := i })
  | none => (false, { p with pos := p.s.length })

/-- `__getitem__` with an `int` subscript (lines 135-146): Python indexing
of `self._s` at `val + pos`, with negative wrap-around; `none` models the
`IndexError` raised out of range. -/
def StringParser.getItemInt (p : StringParser) (val : Int) : Option Char :=
  if 0 ≤ val + (p.pos : Int) then p.s[(val + (p.pos : Int)).toNat]?
  else if 0 ≤ val + (p.pos : Int) + (p.s.length : Int) then
    p.s[(val + (p.pos : Int) + (p.s.length : Int)).toNat]?
  else none

/-- `__getitem__` with a `slice` subscript (lines 139-143): `none` models
the `AttributeError` raised by `val.start += offset` / `val.stop += offset`
on an immutable slice; only a slice with both bounds absent survives and
yields the whole underlying string. -/
def StringParser.getItemSlice (p : StringParser) (start stop : Option Int) : Option Bytes :=
  match start, stop with
  | none, none => some p.s
  | _, _ => none

/-!
Write commands (`w` / `W`, sed.py lines 1422-1476).  `WriteCmd` is the
command object produced by parsing; `writtenBytes` is what one execution
writes to the command's output file.  `WritePatternToNewlineCommand`'s own
`_handle` (lines 1455-1461) writes through the first separator, but its
`from_string` (lines 1463-1476) constructs a `WritePatternCommand`
(line 1474), whose `_handle` (lines 1429-1431) writes the whole pattern
space. -/

inductive WriteCmd
  | patternCmd (file : Bytes)
  | patternToNewlineCmd (file : Bytes)
deriving DecidableEq

/-- What one execution of the command writes to its file:
`WritePatternCommand._handle` writes `dat.pattern_space`;
`WritePatternToNewlineCommand._handle` writes `dat.pattern_space[:loc+1]`
where `loc = dat.pattern_space.find(dat.newline)`, or the whole pattern
space if the separator does not occur. -/
def WriteCmd.writtenBytes : WriteCmd → WorkingData → Bytes
  | .patternCmd _, dat => dat.pattern_space
  | .patternToNewlineCmd _, dat =>
    match findSubstr dat.newline dat.pattern_space with
    | none => dat.pattern_space
    | some loc => List.take (loc + 1) dat.pattern_space

/-- `WritePatternToNewlineCommand.from_string` (lines 1463-1476): parse a
`W` command; `none` models the raised parse error.  Note the constructed
object on line 1474 is a `WritePatternCommand`. -/
def WritePatternToNewlineCommand_from_string (sp : StringParser) : Option WriteCmd :=
  match sp.advance_past WHITESPACE_CHARS with
  | (found, sp1) =>
    if found then
      match sp1.getItemInt 0 with
      | some c =>
        if c = 'W' then
          some (WriteCmd.patternCmd
            ((((((sp1.advance 1).advance_past WHITESPACE_CHARS).2).setMark).advance_end).str_from_mark))
        else none
      | none => none
    else none

/-!
Line sources (sed.py lines 211-330).  `readRecordLoop` is the shared
byte-accumulation loop of `AutoInputFileIterable.__next__` (lines 239-258)
and `StdinIterable.__next__` (lines 298-315): read one byte at a time,
appending to the record while it is below `LINE_BYTE_LIMIT`, keeping the
last `len(sep)` bytes in the `end` comparison buffer, until the buffer
equals the separator or input is exhausted.  The byte stream is modelled
as the list of bytes remaining to be read.
-/

/-- Python `end[-n:]` for `n = len(sep)`: the last `n` elements (the whole
list when `n = 0`, as in Python). -/
def pyLastN (n : Nat) (l : Bytes) : Bytes :=
  if n = 0 then l else l.drop (l.length - n)

/-- The `while end != self._newline_str:` loop: returns the accumulated
record, the unread remainder of the stream, and whether end-of-input was
hit (Python: `read(1)` returned no byte). -/
def readRecordLoop (sep : Bytes) : Bytes → Bytes → Bytes → Bytes × Bytes × Bool
  | b, endAcc, [] => if endAcc = sep then (b, [], false) else (b, [], true)
  | b, endAcc, x :: rest =>
    if endAcc = sep then (b, x :: rest, false)
    else
      readRecordLoop sep (if b.length < LINE_BYTE_LIMIT then b ++ [x] else b)
        (pyLastN sep.length (endAcc ++ [x])) rest

/-- `AutoInputFileIterable.__next__` (lines 239-271).  The state is `none`
when the file handle has been closed (`self._fp = None`); the result's
first component is `none` for `StopIteration`.  On end-of-file the handle
is closed; a non-empty record is still returned, and an empty one raises
`StopIteration` (lines 259-269). -/
def autoFileNext (sep : Bytes) : Option Bytes → Option Bytes × Option Bytes
  | none => (none, none)
  | some input =>
    if (readRecordLoop sep [] [] input).1 ≠ [] then
      (some (readRecordLoop sep [] [] input).1,
       if (readRecordLoop sep [] [] input).2.2 then none
       else some (readRecordLoop sep [] [] input).2.1)
    else (none, none)

/-- `StdinIterable.__next__` (lines 298-322).  The state is the remaining
input plus the `_eof_detected` flag.  Unlike the file iterable, after the
read loop the accumulated record is returned unconditionally — including
the empty record produced when the stream is already at end-of-input. -/
def stdinNext (sep : Bytes) (st : Bytes × Bool) : Option Bytes × (Bytes × Bool) :=
  if st.2 then (none, (st.1, true))
  else
    (some (readRecordLoop sep [] [] st.1).1,
     ((readRecordLoop sep [] [] st.1).2.1, (readRecordLoop sep [] [] st.1).2.2))

/-!
Script parsing (`Sed._parse_script_lines`, sed.py lines 1593-1629) and the
parsers it dispatches to.  The embedding covers the address conditions
(`RangeSedCondition.from_string`, lines 530-548, and
`RegexSedCondition.from_string`, lines 561-573), the twelve one-character
commands whose `from_string` bodies are identical (`d D F h H g G l n N p
P`: advance one character, skip whitespace, return the command object) and
the `#` comment (lines 1506-1515); the remaining command characters are
recognised (`SED_COMMANDS` keys) but their tail parsing is not modelled —
a script reaching one of them yields the distinguished
`unmodeledCommand` outcome, never a formatted error, so the theorems
about formatted errors are unaffected.  A parse error carries the parser
state at the raise; `Sed._parse_script_lines` catches it and reports
`Error at expression #<i+1>, char <substr_line.pos + 1>` (line 1629),
where `i` enumerates the newline-delimited script lines.
(`RegexSedCondition.__init__`'s escape inversion of the pattern text is
not modelled: no theorem here depends on condition semantics.)
-/

inductive PErrKind
  | notARange
  | unexpectedComma
  | unterminatedRegex
  | notThisCommand
  | invalidCommand
  | extraCharacters
  | missingCommand
deriving DecidableEq

/-- Python `int()` on a digit string. -/
def parseNatDigits (ds : Bytes) : Nat :=
  ds.foldl (fun n c => n * 10 + (c.toNat - '0'.toNat)) 0

inductive Cond
  | rangeCond (a b : Nat)
  | regexCond (pat : Bytes)
deriving DecidableEq

/-- `RangeSedCondition.from_string` (lines 530-548). -/
def RangeSedCondition_from_string (sp : StringParser) :
    Except (StringParser × PErrKind) (Cond × StringParser) :=
  let a1 := sp.advance_past WHITESPACE_CHARS
  if a1.1 = true then
    match (a1.2).getItemInt 0 with
    | some c =>
      if c ∈ NUMBER_CHARS then
        let sp1 := (a1.2).setMark
        let sp2 := (sp1.advance_past NUMBER_CHARS).2
        let first_num := parseNatDigits sp2.str_from_mark
        if 0 < sp2.len then
          match sp2.getItemInt 0 with
          | some c2 =>
            if c2 = ',' then
              let sp3 := sp2.advance 1
              if 0 < sp3.len then
                match sp3.getItemInt 0 with
                | some c3 =>
                  if c3 ∈ NUMBER_CHARS then
                    let sp4 := sp3.setMark
                    let sp5 := (sp4.advance_past NUMBER_CHARS).2
                    Except.ok (Cond.rangeCond first_num (parseNatDigits sp5.str_from_mark), sp5)
                  else Except.error (sp3, PErrKind.unexpectedComma)
                | none => Except.error (sp3, PErrKind.unexpectedComma)
              else Except.error (sp3, PErrKind.unexpectedComma)
            else Except.ok (Cond.rangeCond first_num first_num, sp2)
          | none => Except.ok (Cond.rangeCond first_num first_num, sp2)
        else Except.ok (Cond.rangeCond first_num first_num, sp2)
      else Except.error (a1.2, PErrKind.notARange)
    | none => Except.error (a1.2, PErrKind.notARange)
  else Except.error (a1.2, PErrKind.notARange)

/-- `RegexSedCondition.from_string` (lines 561-573): the raw pattern text
between the slashes is stored. -/
def RegexSedCondition_from_string (sp : StringParser) :
    Except (StringParser × PErrKind) (Cond × StringParser) :=
  let a1 := sp.advance_past WHITESPACE_CHARS
  if a1.1 = true then
    match (a1.2).getItemInt 0 with
    | some c =>
      if c = '/' then
        let sp1 := ((a1.2).advance 1).setMark
        let a2 := sp1.advance_until ['/']
        if a2.1 = true then
          Except.ok (Cond.regexCond (a2.2).str_from_mark, (a2.2).advance 1)
        else Except.error (a2.2, PErrKind.unterminatedRegex)
      else Except.error (a1.2, PErrKind.notARange)
    | none => Except.error (a1.2, PErrKind.notARange)
  else Except.error (a1.2, PErrKind.notARange)

inductive PCmd
  | simpleCmd (c : Char) (cond : Option Cond)
deriving DecidableEq

/-- The shared `from_string` body of the twelve one-character commands
(e.g. `PrintCommand.from_string`, lines 1174-1184): skip whitespace, check
the command character, advance one, skip whitespace. -/
def simpleCmd_from_string (cc : Char) (cond : Option Cond) (sp : StringParser) :
    Except (StringParser × PErrKind) (PCmd × StringParser) :=
  let a1 := sp.advance_past WHITESPACE_CHARS
  if a1.1 = true then
    match (a1.2).getItemInt 0 with
    | some c =>
      if c = cc then
        Except.ok (PCmd.simpleCmd cc cond, (((a1.2).advance 1).advance_past WHITESPACE_CHARS).2)
      else Except.error (a1.2, PErrKind.notThisCommand)
    | none => Except.error (a1.2, PErrKind.notThisCommand)
  else Except.error (a1.2, PErrKind.notThisCommand)

/-- `Comment.from_string` (lines 1506-1515): consume the rest of the line,
produce no command. -/
def Comment_from_string (sp : StringParser) :
    Except (StringParser × PErrKind) (Option PCmd × StringParser) :=
  let a1 := sp.advance_past WHITESPACE_CHARS
  if a1.1 = true then
    match (a1.2).getItemInt 0 with
    | some c =>
      if c = '#' then Except.ok (none, (a1.2).advance_end)
      else Except.error (a1.2, PErrKind.notThisCommand)
    | none => Except.error (a1.2, PErrKind.notThisCommand)
  else Except.error (a1.2, PErrKind.notThisCommand)

/-- The command characters whose tail parsing is modelled here. -/
def MODELED_SIMPLE_CHARS : Bytes := ['d', 'D', 'F', 'h', 'H', 'g', 'G', 'l', 'n', 'N', 'p', 'P']

/-- All keys of the `SED_COMMANDS` dispatch table (lines 1517-1547). -/
def SED_COMMAND_CHARS : Bytes :=
  ['s', 'a', 'b', 'c', 'd', 'D', 'e', 'F', 'h', 'H', 'g', 'G', 'i', 'l', 'n', 'N', 'p', 'P',
   'q', 'Q', 'r', 'R', 't', 'T', 'v', 'w', 'W', ':', '#']

/-- The check and separator skip after a parsed command (lines 1617-1620):
raise `extra characters after command` if a non-separator character
follows, then skip whitespace and `;`. -/
def afterCommandStep (sp : StringParser) : Except (StringParser × PErrKind) StringParser :=
  let a3 := sp.advance_past WHITESPACE_CHARS
  if a3.1 = true then
    match (a3.2).getItemInt 0 with
    | some c3 =>
      if c3 = ';' then Except.ok ((a3.2).advance_past (WHITESPACE_CHARS ++ [';'])).2
      else Except.error (a3.2, PErrKind.extraCharacters)
    | none => Except.ok ((a3.2).advance_past (WHITESPACE_CHARS ++ [';'])).2
  else Except.ok ((a3.2).advance_past (WHITESPACE_CHARS ++ [';'])).2

inductive LineResult
  | okLine (cmds : List PCmd)
  | parseErr (pos : Nat) (kind : PErrKind)
  | indexError
  | unmodeledCommand
  | fuelOut
deriving DecidableEq

/-- The `while len(substr_line) > 0:` loop of `Sed._parse_script_lines`
(lines 1596-1627) over one script line, accumulating parsed commands.
`parseErr` carries the parser position at the raise of a
`SedParsingException`; `indexError` models the uncaught `IndexError` of
`substr_line[0]` on an all-whitespace tail; `fuelOut` marks states where
the source loop makes no progress (e.g. a leading bare `;`), which in the
source simply never terminates. -/
def parseLineLoop (acc : List PCmd) : Nat → StringParser → LineResult
  | 0, _ => LineResult.fuelOut
  | Nat.succ fuel, sp0 =>
    if sp0.len = 0 then LineResult.okLine acc
    else
      let sp := (sp0.advance_past WHITESPACE_CHARS).2
      match sp.getItemInt 0 with
      | none => LineResult.indexError
      | some c =>
        match
          (if c ∈ NUMBER_CHARS then
            match RangeSedCondition_from_string sp with
            | Except.ok (cond, sp2) => Except.ok (some cond, sp2)
            | Except.error e => Except.error e
          else if c = '/' then
            match RegexSedCondition_from_string sp with
            | Except.ok (cond, sp2) => Except.ok (some cond, sp2)
            | Except.error e => Except.error e
          else (Except.ok (none, sp) :
            Except (StringParser × PErrKind) (Option Cond × StringParser))) with
        | Except.error e => LineResult.parseErr e.1.pos e.2
        | Except.ok (cond, sp2) =>
          let a2 := sp2.advance_past WHITESPACE_CHARS
          if a2.1 = true then
            match (a2.2).getItemInt 0 with
            | none => LineResult.indexError
            | some c2 =>
              if c2 = ';' then
                match cond with
                | some _ => LineResult.parseErr (a2.2).pos PErrKind.missingCommand
                | none => parseLineLoop acc fuel (a2.2)
              else if c2 ∈ MODELED_SIMPLE_CHARS then
                match simpleCmd_from_string c2 cond (a2.2) with
                | Except.error e => LineResult.parseErr e.1.pos e.2
                | Except.ok (cmd, sp3) =>
                  match afterCommandStep sp3 with
                  | Except.error e => LineResult.parseErr e.1.pos e.2
                  | Except.ok sp4 => parseLineLoop (acc ++ [cmd]) fuel sp4
              else if c2 = '#' then
                match Comment_from_string (a2.2) with
                | Except.error e => LineResult.parseErr e.1.pos e.2
                | Except.ok (cmdOpt, sp3) =>
                  match afterCommandStep sp3 with
                  | Except.error e => LineResult.parseErr e.1.pos e.2
                  | Except.ok sp4 => parseLineLoop (acc ++ cmdOpt.toList) fuel sp4
              else if c2 ∈ SED_COMMAND_CHARS then LineResult.unmodeledCommand
              else LineResult.parseErr (a2.2).pos PErrKind.invalidCommand
          else
            match cond with
            | some _ => LineResult.parseErr (a2.2).pos PErrKind.missingCommand
            | none => parseLineLoop acc fuel (a2.2)

inductive ScriptErr
  | formatted (exprNum charNum : Nat)
  | indexError
  | unmodeledCommand
  | fuelOut
deriving DecidableEq

/-- The `for i, line in enumerate(script_lines):` loop (lines 1594-1629):
on a caught `SedParsingException` the reported pair is
`(i + 1, substr_line.pos + 1)` — the 1-based index of the newline-delimited
line and the 1-based character offset within that line. -/
def parseScriptLinesAux (i : Nat) (acc : List PCmd) :
    List Bytes → Except ScriptErr (List PCmd)
  | [] => Except.ok acc
  | line :: rest =>
    match parseLineLoop acc (line.length + 1) (mkParser line) with
    | LineResult.okLine acc2 => parseScriptLinesAux (i + 1) acc2 rest
    | LineResult.parseErr pos _ => Except.error (ScriptErr.formatted (i + 1) (pos + 1))
    | LineResult.indexError => Except.error ScriptErr.indexError
    | LineResult.unmodeledCommand => Except.error ScriptErr.unmodeledCommand
    | LineResult.fuelOut => Except.error ScriptErr.fuelOut

/-- `Sed._parse_script_lines` over the newline-split script lines. -/
def parseScriptLines (lines : List Bytes) : Except ScriptErr (List PCmd) :=
  parseScriptLinesAux 0 [] lines

/-! Lemmas and claim theorems. -/

lemma isPrefixOf_length_le : ∀ p s : Bytes, p.isPrefixOf s = true → p.length ≤ s.length := by
  intro p
  induction p with
  | nil => intro s _; simp
  | cons a as ih =>
    intro s h
    cases s with
    | nil => simp [List.isPrefixOf] at h
    | cons b bs =>
      simp only [List.isPrefixOf, Bool.and_eq_true] at h
      simpa using ih bs h.2

lemma findSubstr_bound : ∀ (pat s : Bytes) (i : Nat),
    findSubstr pat s = some i → i + pat.length ≤ s.length := by
  intro pat s
  induction s with
  | nil =>
    intro i h
    simp only [findSubstr] at h
    by_cases hp : pat = []
    · simp [hp] at h ⊢; omega
    · simp [hp] at h
  | cons x rest ih =>
    intro i h
    simp only [findSubstr] at h
    by_cases hpre : pat.isPrefixOf (x :: rest) = true
    · simp only [hpre, if_pos] at h
      cases h
      simpa using isPrefixOf_length_le pat (x :: rest) hpre
    · simp only [hpre] at h
      cases hr : findSubstr pat rest with
      | none => simp [hr] at h
      | some j =>
        simp only [hr] at h
        cases h
        have := ih j hr
        simp only [List.length_cons]
        omega

/-- At the index returned by `findSubstr`, the needle is a leading piece of the
remaining list. -/
lemma findSubstr_found : ∀ (pat s : Bytes) (i : Nat),
    findSubstr pat s = some i → pat.isPrefixOf (s.drop i) = true := by
  intro pat s
  induction s with
  | nil =>
    intro i h
    simp only [findSubstr] at h
    by_cases hp : pat = []
    · cases hp; simp at h; cases h; simp [List.isPrefixOf]
    · simp [hp] at h
  | cons x rest ih =>
    intro i h
    simp only [findSubstr] at h
    by_cases hpre : pat.isPrefixOf (x :: rest) = true
    · simp only [hpre, if_pos] at h; cases h; simpa using hpre
    · simp only [hpre] at h
      cases hr : findSubstr pat rest with
      | none => simp [hr] at h
      | some j =>
        simp only [hr] at h
        cases h
        simpa using ih j hr

/-- Before the index returned by `findSubstr`, the needle never occurs. -/
lemma findSubstr_least : ∀ (pat s : Bytes) (i : Nat),
    findSubstr pat s = some i → ∀ j, j < i → pat.isPrefixOf (s.drop j) = false := by
  intro pat s
  induction s with
  | nil =>
    intro i h j hj
    simp only [findSubstr] at h
    by_cases hp : pat = []
    · simp [hp] at h; omega
    · simp [hp] at h
  | cons x rest ih =>
    intro i h j hj
    simp only [findSubstr] at h
    by_cases hpre : pat.isPrefixOf (x :: rest) = true
    · simp only [hpre, if_pos] at h; cases h; omega
    · rw [if_neg hpre] at h
      cases hr : findSubstr pat rest with
      | none => rw [hr] at h; cases h
      | some t =>
        rw [hr] at h
        cases h
        cases j with
        | zero => rw [List.drop_zero]; exact Bool.eq_false_iff.mpr hpre
        | succ j2 =>
          have := ih t hr j2 (by omega)
          simpa using this

/-- When `findSubstr` fails, the needle occurs nowhere. -/
lemma findSubstr_none : ∀ (pat s : Bytes),
    findSubstr pat s = none → ∀ j, pat.isPrefixOf (s.drop j) = false := by
  intro pat s
  induction s with
  | nil =>
    intro h j
    simp only [findSubstr] at h
    by_cases hp : pat = []
    · simp [hp] at h
    · cases pat with
      | nil => simp at hp
      | cons a as => simp [List.isPrefixOf]
  | cons x rest ih =>
    intro h j
    simp only [findSubstr] at h
    by_cases hpre : pat.isPrefixOf (x :: rest) = true
    · simp [hpre] at h
    · rw [if_neg hpre] at h
      cases hr : findSubstr pat rest with
      | some t => rw [hr] at h; cases h
      | none =>
        cases j with
        | zero => rw [List.drop_zero]; exact Bool.eq_false_iff.mpr hpre
        | succ j2 => simpa using ih hr j2

/-!
Termination of the matching loop.  The loop only recurses when the current
chunk is non-empty, and for a well-formed search each continued iteration
strictly shortens the suffix `ps[offset:]` examined next: a skipped match
moves `offset` past the match end (one further when zero-width), while an
applied match rebuilds `ps` and moves `offset` past the replacement.
-/

lemma length_pos_of_not_isEmpty {l : Bytes} (h : l.isEmpty = false) : 0 < l.length := by
  cases l with
  | nil => simp [List.isEmpty] at h
  | cons a as => simp

lemma skip_measure (ps : Bytes) (offset ms me : Nat)
    (hms : ms ≤ me) (hme : me ≤ (List.drop offset ps).length)
    (hne : (List.drop offset ps).isEmpty = false) :
    (List.drop (skipOffset offset ms me) ps).length < (List.drop offset ps).length := by
  have hpos := length_pos_of_not_isEmpty hne
  simp only [List.length_drop] at hpos hme ⊢
  unfold skipOffset
  split <;> omega

lemma apply_measure (S : ReSearch) (ps : Bytes) (offset ms me : Nat)
    (hms : ms ≤ me) (hme : me ≤ (List.drop offset ps).length)
    (hne : (List.drop offset ps).isEmpty = false) :
    (List.drop (applyOffset S offset (List.drop offset ps) ms me)
        (applyAt S ps offset (List.drop offset ps) ms me)).length
      < (List.drop offset ps).length := by
  have hpos := length_pos_of_not_isEmpty hne
  simp only [List.length_drop] at hpos hme ⊢
  unfold applyOffset applyAt
  simp only [List.length_append, List.length_take, List.length_drop]
  split <;> omega

lemma subMatchLoop_isSome (S : ReSearch) (hwf : SearchWF S) (nth : Option Nat) (g : Bool) :
    ∀ fuel ps offset matchIdx matched count,
      (List.drop offset ps).length < fuel →
      (subMatchLoop S nth g fuel ps offset (List.drop offset ps) matchIdx matched count).isSome
        = true := by
  intro fuel
  induction fuel with
  | zero => intro ps offset matchIdx matched count h; omega
  | succ fuel ih =>
    intro ps offset matchIdx matched count h
    rw [subMatchLoop]
    cases hs : S.search (List.drop offset ps) with
    | none => simp
    | some p =>
      obtain ⟨ms, me⟩ := p
      obtain ⟨hms, hme⟩ := hwf _ _ _ hs
      cases hA : applyHere nth matchIdx with
      | false =>
        simp only [hA, Bool.false_eq_true, if_false]
        cases hC : (List.drop offset ps).isEmpty with
        | true => simp [hC]
        | false =>
          simp only [hC, Bool.false_eq_true, if_false]
          exact ih ps (skipOffset offset ms me) (matchIdx + 1) matched count
            (by
              have := skip_measure ps offset ms me hms hme hC
              omega)
      | true =>
        simp only [hA, if_true]
        cases hB : nth.isSome && !g with
        | true => simp [hB]
        | false =>
          simp only [hB, Bool.false_eq_true, if_false]
          cases hC : (List.drop offset ps).isEmpty with
          | true => simp [hC]
          | false =>
            simp only [hC, Bool.false_eq_true, if_false]
            exact ih (applyAt S ps offset (List.drop offset ps) ms me)
              (applyOffset S offset (List.drop offset ps) ms me) (matchIdx + 1) true (count + 1)
              (by
                have := apply_measure S ps offset ms me hms hme hC
                omega)

lemma subMatchLoop_mono (S : ReSearch) (nth : Option Nat) (g : Bool) :
    ∀ fuel fuel2 ps offset chunk matchIdx matched count r,
      subMatchLoop S nth g fuel ps offset chunk matchIdx matched count = some r →
      fuel ≤ fuel2 →
      subMatchLoop S nth g fuel2 ps offset chunk matchIdx matched count = some r := by
  intro fuel
  induction fuel with
  | zero =>
    intro fuel2 ps offset chunk matchIdx matched count r h _
    simp [subMatchLoop] at h
  | succ fuel ih =>
    intro fuel2 ps offset chunk matchIdx matched count r h hle
    cases fuel2 with
    | zero => omega
    | succ fuel2 =>
      rw [subMatchLoop] at h ⊢
      cases hs : S.search chunk with
      | none => rw [hs] at h; exact h
      | some p =>
        obtain ⟨ms, me⟩ := p
        rw [hs] at h
        cases hA : applyHere nth matchIdx with
        | false =>
          simp only [hA, Bool.false_eq_true, if_false] at h ⊢
          cases hC : chunk.isEmpty with
          | true => simp only [hC, if_true] at h ⊢; exact h
          | false =>
            simp only [hC, Bool.false_eq_true, if_false] at h ⊢
            exact ih fuel2 _ _ _ _ _ _ _ h (by omega)
        | true =>
          simp only [hA, if_true] at h ⊢
          cases hB : nth.isSome && !g with
          | true => simp only [hB, if_true] at h ⊢; exact h
          | false =>
            simp only [hB, Bool.false_eq_true, if_false] at h ⊢
            cases hC : chunk.isEmpty with
            | true => simp only [hC, if_true] at h ⊢; exact h
            | false =>
              simp only [hC, Bool.false_eq_true, if_false] at h ⊢
              exact ih fuel2 _ _ _ _ _ _ _ h (by omega)

lemma subMatchLoop_fuel_irrel (S : ReSearch) (hwf : SearchWF S) (nth : Option Nat) (g : Bool)
    (ps : Bytes) (offset matchIdx count : Nat) (matched : Bool) (f1 f2 : Nat)
    (h1 : (List.drop offset ps).length < f1) (h2 : (List.drop offset ps).length < f2) :
    subMatchLoop S nth g f1 ps offset (List.drop offset ps) matchIdx matched count =
      subMatchLoop S nth g f2 ps offset (List.drop offset ps) matchIdx matched count := by
  have hS := subMatchLoop_isSome S hwf nth g ((List.drop offset ps).length + 1)
    ps offset matchIdx matched count (by omega)
  rw [Option.isSome_iff_exists] at hS
  obtain ⟨r, hr⟩ := hS
  rw [subMatchLoop_mono S nth g _ f1 _ _ _ _ _ _ _ hr (by omega),
    subMatchLoop_mono S nth g _ f2 _ _ _ _ _ _ _ hr (by omega)]

/-- Bridge between the loop-side substitution (relative to `offset` and the
current chunk) and the spec-side substitution at absolute span. -/
lemma applyAt_spec (S : ReSearch) (ps : Bytes) (offset ms me : Nat) :
    applyAt S ps offset (List.drop offset ps) ms me =
      specApply S ps (ms + offset) (me + offset) := by
  unfold applyAt specApply newDatAt
  rw [List.drop_drop, Nat.add_comm offset ms]
  have h1 : me + offset - (ms + offset) = me - ms := by omega
  rw [h1]

lemma applyOffset_spec (S : ReSearch) (ps : Bytes) (offset ms me : Nat) :
    applyOffset S offset (List.drop offset ps) ms me =
      specApplyOffset S ps (ms + offset) (me + offset) := by
  unfold applyOffset specApplyOffset newDatAt
  rw [List.drop_drop, Nat.add_comm offset ms]
  have h1 : me + offset - (ms + offset) = me - ms := by omega
  rw [h1]

/-- Once the running match index has reached the `n` threshold, the loop
with `n = k` and `g` set behaves exactly like the unconditional global
loop: every further match is applied. -/
lemma subMatchLoop_ge_global (S : ReSearch) (k : Nat) :
    ∀ fuel ps offset chunk matchIdx matched count, k ≤ matchIdx + 1 →
      subMatchLoop S (some k) true fuel ps offset chunk matchIdx matched count =
        subMatchLoop S none true fuel ps offset chunk matchIdx matched count := by
  intro fuel
  induction fuel with
  | zero => intro ps offset chunk matchIdx matched count hk; simp [subMatchLoop]
  | succ fuel ih =>
    intro ps offset chunk matchIdx matched count hk
    rw [subMatchLoop, subMatchLoop]
    cases hs : S.search chunk with
    | none => rfl
    | some p =>
      obtain ⟨ms, me⟩ := p
      have hA1 : applyHere (some k) matchIdx = true := by
        simp [applyHere]; omega
      have hA2 : applyHere none matchIdx = true := by simp [applyHere]
      rw [hA1, hA2]
      simp only [Option.isSome_some, Option.isSome_none, Bool.not_true, Bool.and_false,
        Bool.false_eq_true, if_false, if_true]
      cases hC : chunk.isEmpty with
      | true => simp [hC]
      | false =>
        simp only [hC, Bool.false_eq_true, if_false]
        exact ih _ _ _ _ _ _ (by omega)

/-- With `n = k` and no `g`, the matching loop skips the first `k - 1`
sequential matches untouched, replaces the k-th (if it exists) and stops
immediately; with fewer than `k` matches nothing is replaced. -/
lemma subMatchLoop_nth_only (S : ReSearch) (hwf : SearchWF S) (k : Nat) :
    ∀ fuel ps offset matchIdx count,
      (List.drop offset ps).length < fuel →
      matchIdx + 1 ≤ k →
      subMatchLoop S (some k) false fuel ps offset (List.drop offset ps) matchIdx false count =
        some (match nthSeqMatchAux S fuel ps offset (k - 1 - matchIdx) with
              | none => (ps, false, count)
              | some (s, e, _) => (specApply S ps s e, true, count + 1)) := by
  intro fuel
  induction fuel with
  | zero => intro ps offset matchIdx count h hk; omega
  | succ fuel ih =>
    intro ps offset matchIdx count h hk
    rw [subMatchLoop, nthSeqMatchAux]
    cases hs : S.search (List.drop offset ps) with
    | none => simp
    | some p =>
      obtain ⟨ms, me⟩ := p
      obtain ⟨hms, hme⟩ := hwf _ _ _ hs
      by_cases hkeq : matchIdx + 1 = k
      · have hA : applyHere (some k) matchIdx = true := by
          simp [applyHere]; omega
        have hk0 : k - 1 - matchIdx = 0 := by omega
        simp only [hA, if_true, Option.isSome_some, Bool.not_false, Bool.and_true,
          hk0, if_pos rfl]
        rw [applyAt_spec]
      · have hA : applyHere (some k) matchIdx = false := by
          simp [applyHere]; omega
        have hk0 : ¬ (k - 1 - matchIdx = 0) := by omega
        simp only [hA, Bool.false_eq_true, if_false, hk0]
        cases hC : (List.drop offset ps).isEmpty with
        | true => simp [hC]
        | false =>
          simp only [hC, Bool.false_eq_true, if_false]
          have hmeas : (List.drop (skipOffset offset ms me) ps).length < fuel := by
            have := skip_measure ps offset ms me hms hme hC
            omega
          have hidx : k - 1 - matchIdx - 1 = k - 1 - (matchIdx + 1) := by omega
          rw [hidx]
          exact ih ps (skipOffset offset ms me) (matchIdx + 1) count hmeas (by omega)

/-- With `n = k` and `g`, the matching loop skips the first `k - 1`
sequential matches untouched, replaces the k-th, and continues exactly as
an unconditional global substitution from just past the replacement. -/
lemma subMatchLoop_nth_global (S : ReSearch) (hwf : SearchWF S) (k : Nat) :
    ∀ fuel ps offset matchIdx count,
      (List.drop offset ps).length < fuel →
      matchIdx + 1 ≤ k →
      subMatchLoop S (some k) true fuel ps offset (List.drop offset ps) matchIdx false count =
        match nthSeqMatchAux S fuel ps offset (k - 1 - matchIdx) with
        | none => some (ps, false, count)
        | some (s, e, chEmpty) =>
          if chEmpty then some (specApply S ps s e, true, count + 1)
          else
            subMatchLoop S none true
              ((List.drop (specApplyOffset S ps s e) (specApply S ps s e)).length + 1)
              (specApply S ps s e) (specApplyOffset S ps s e)
              (List.drop (specApplyOffset S ps s e) (specApply S ps s e)) k true (count + 1) := by
  intro fuel
  induction fuel with
  | zero => intro ps offset matchIdx count h hk; omega
  | succ fuel ih =>
    intro ps offset matchIdx count h hk
    rw [subMatchLoop, nthSeqMatchAux]
    cases hs : S.search (List.drop offset ps) with
    | none => simp
    | some p =>
      obtain ⟨ms, me⟩ := p
      obtain ⟨hms, hme⟩ := hwf _ _ _ hs
      by_cases hkeq : matchIdx + 1 = k
      · have hA : applyHere (some k) matchIdx = true := by
          simp [applyHere]; omega
        have hk0 : k - 1 - matchIdx = 0 := by omega
        simp only [hA, if_true, Option.isSome_some, Bool.not_true, Bool.and_false,
          Bool.false_eq_true, if_false, hk0, if_pos rfl]
        cases hC : (List.drop offset ps).isEmpty with
        | true =>
          simp only [hC, if_true]
          rw [applyAt_spec]
        | false =>
          simp only [hC, Bool.false_eq_true, if_false]
          have hmeas : (List.drop (applyOffset S offset (List.drop offset ps) ms me)
              (applyAt S ps offset (List.drop offset ps) ms me)).length < fuel := by
            have := apply_measure S ps offset ms me hms hme hC
            omega
          rw [subMatchLoop_ge_global S k fuel _ _ _ _ _ _ (by omega)]
          rw [subMatchLoop_fuel_irrel S hwf none true
            (applyAt S ps offset (List.drop offset ps) ms me)
            (applyOffset S offset (List.drop offset ps) ms me) (matchIdx + 1) (count + 1) true
            fuel ((List.drop (applyOffset S offset (List.drop offset ps) ms me)
              (applyAt S ps offset (List.drop offset ps) ms me)).length + 1) hmeas (by omega)]
          rw [applyAt_spec, applyOffset_spec, hkeq]
      · have hA : applyHere (some k) matchIdx = false := by
          simp [applyHere]; omega
        have hk0 : ¬ (k - 1 - matchIdx = 0) := by omega
        simp only [hA, Bool.false_eq_true, if_false, hk0]
        cases hC : (List.drop offset ps).isEmpty with
        | true => simp [hC]
        | false =>
          simp only [hC, Bool.false_eq_true, if_false]
          have hmeas : (List.drop (skipOffset offset ms me) ps).length < fuel := by
            have := skip_measure ps offset ms me hms hme hC
            omega
          have hidx : k - 1 - matchIdx - 1 = k - 1 - (matchIdx + 1) := by omega
          rw [hidx]
          exact ih ps (skipOffset offset ms me) (matchIdx + 1) count hmeas (by omega)

lemma amSearch_wf : SearchWF amSearch := by
  intro chunk ms me h
  unfold amSearch literalSearch at h
  simp only at h
  cases hf : findSubstr "am".data chunk with
  | none => rw [hf] at h; cases h
  | some i =>
    rw [hf] at h
    cases h
    exact ⟨Nat.le_add_right _ _, findSubstr_bound _ _ _ hf⟩

lemma anchSearch_wf : SearchWF anchSearch := by
  intro chunk ms me h
  unfold anchSearch at h
  cases chunk with
  | nil => cases h
  | cons c cs =>
    simp only at h
    by_cases hc : c = 'a'
    · rw [if_pos hc] at h
      cases h
      simp
    · rw [if_neg hc] at h
      cases h

lemma anchSearch_anchored : ∀ s ms me, anchSearch.search s = some (ms, me) → ms = 0 := by
  intro s ms me h
  unfold anchSearch at h
  cases s with
  | nil => cases h
  | cons c cs =>
    simp only at h
    by_cases hc : c = 'a'
    · rw [if_pos hc] at h; cases h; rfl
    · rw [if_neg hc] at h; cases h

/-- Top-level form of the nth-only decomposition, at the entry state of the
matching loop. -/
lemma subMatchLoop_nth_only_top (S : ReSearch) (hwf : SearchWF S) (k : Nat) (hk : 1 ≤ k)
    (ps : Bytes) :
    subMatchLoop S (some k) false (ps.length + 1) ps 0 ps 0 false 0
      = some (substituteNthSpec S k ps) := by
  have h := subMatchLoop_nth_only S hwf k (ps.length + 1) ps 0 0 0 (by simp) (by omega)
  rw [List.drop_zero] at h
  rw [h]
  unfold substituteNthSpec nthSeqMatch
  rw [Nat.sub_zero]

/-- Top-level form of the nth-plus-global decomposition. -/
lemma subMatchLoop_nth_global_top (S : ReSearch) (hwf : SearchWF S) (k : Nat) (hk : 1 ≤ k)
    (ps : Bytes) :
    subMatchLoop S (some k) true (ps.length + 1) ps 0 ps 0 false 0
      = substituteNthGlobalSpec S k ps := by
  have h := subMatchLoop_nth_global S hwf k (ps.length + 1) ps 0 0 0 (by simp) (by omega)
  rw [List.drop_zero] at h
  rw [h]
  unfold substituteNthGlobalSpec nthSeqMatch
  rw [Nat.sub_zero]

/-- With no `^` anchor, `SubstituteCommand._handle` reduces to the matching
loop with the given flags. -/
lemma SubstituteCommand_handle_unanchored (S : ReSearch) (g : Bool) (nth : Option Nat)
    (hnth : nth.isSome = true) (fuel : Nat) (ps : Bytes) :
    SubstituteCommand_handle S ⟨g, nth, false⟩ fuel ps =
      subMatchLoop S nth g fuel ps 0 ps 0 false 0 := by
  cases nth with
  | none => cases hnth
  | some n => simp [SubstituteCommand_handle]

/-- C1: with a numeric flag `n = k` (k-th match) and no `g`, the substitute
command replaces exactly the k-th sequential match of the find pattern in
the pattern space and no others, the loop stopping right after that one
substitution (`substituteNthSpec`); with both `n = k` and `g`, the first
`k - 1` matches are skipped untouched, the k-th is replaced, and the loop
then continues as an unconditional global substitution, replacing every
subsequent match (`substituteNthGlobalSpec`).  In particular `3s/am/sam;/2`
maps "and I am am am using" to "and I am sam; am using" with exactly one
substitution, and `3s/am/sam;/2g` maps it to "and I am sam; sam; using". -/
theorem substitute_nth_flag_semantics :
    (∀ (S : ReSearch), SearchWF S → ∀ (k : Nat), 1 ≤ k → ∀ ps : Bytes,
        SubstituteCommand_handle S ⟨false, some k, false⟩ (ps.length + 1) ps
          = some (substituteNthSpec S k ps)) ∧
    (∀ (S : ReSearch), SearchWF S → ∀ (k : Nat), 1 ≤ k → ∀ ps : Bytes,
        SubstituteCommand_handle S ⟨true, some k, false⟩ (ps.length + 1) ps
          = substituteNthGlobalSpec S k ps) ∧
    SubstituteCommand_handle amSearch ⟨false, some 2, false⟩ (exLine1.length + 1) exLine1
      = some ("and I am sam; am using".data, true, 1) ∧
    SubstituteCommand_handle amSearch ⟨true, some 2, false⟩ (exLine1.length + 1) exLine1
      = some ("and I am sam; sam; using".data, true, 2) := by
  refine ⟨?_, ?_, ?_, ?_⟩
  · intro S hwf k hk ps
    rw [SubstituteCommand_handle_unanchored S false (some k) rfl]
    exact subMatchLoop_nth_only_top S hwf k hk ps
  · intro S hwf k hk ps
    rw [SubstituteCommand_handle_unanchored S true (some k) rfl]
    exact subMatchLoop_nth_global_top S hwf k hk ps
  · decide
  · decide

/-- Witness for C1: the general statement applied to the concrete compiled
command `s/am/sam;/2` on the spec's example line. -/
theorem substitute_nth_flag_semantics_witness :
    SearchWF amSearch ∧ 1 ≤ 2 ∧
    SubstituteCommand_handle amSearch ⟨false, some 2, false⟩ (exLine1.length + 1) exLine1
      = some (substituteNthSpec amSearch 2 exLine1) :=
  ⟨amSearch_wf, by omega,
    substitute_nth_flag_semantics.1 amSearch amSearch_wf 2 (by omega) exLine1⟩

/-- C2 counterexample: the claim "if `n` is absent or equals 1, the command
behaves as first-match-only (at most one substitution)" fails when the `g`
flag is also set: for the anchored command `s/^a/b/1g` on pattern space
"aa", the anchored pattern re-matches at the start of each successive
search chunk, so the loop substitutes twice (yielding "bb"), not at most
once. -/
theorem anchored_n1_global_two_substitutions :
    SubstituteCommand_handle anchSearch ⟨true, some 1, true⟩ 3 ['a', 'a']
        = some (['b', 'b'], true, 2) ∧ ¬ (2 ≤ 1) := by
  constructor
  · rfl
  · omega

/-- C2 (amended): for a substitute command whose find pattern starts with
the `^` anchor: if the numeric flag `n` is absent or equals 1 and the `g`
flag is not set, the command performs at most one substitution, at the
start of the pattern space; for any `n` greater than 1 without `g` it
performs zero substitutions on every pattern space.  (With `g` set the
anchored pattern can be applied repeatedly, one chunk at a time, as the
counterexample shows.) -/
theorem anchored_substitute_semantics (S : ReSearch) (ps : Bytes)
    (hanch : ∀ s ms me, S.search s = some (ms, me) → ms = 0) :
    (∀ n : Nat, 1 < n → ∀ fuel,
        SubstituteCommand_handle S ⟨false, some n, true⟩ fuel ps = some (ps, false, 0)) ∧
    (∀ nthIn : Option Nat, nthIn = none ∨ nthIn = some 1 → ∀ fuel, 1 ≤ fuel →
        SubstituteCommand_handle S ⟨false, nthIn, true⟩ fuel ps =
          some (match S.search ps with
                | none => (ps, false, 0)
                | some (ms, me) =>
                  (S.repl (List.take me ps) ++ List.drop me ps, true, 1))) := by
  constructor
  · intro n hn fuel
    have hd : decide (n > 1) = true := by simp; omega
    simp [SubstituteCommand_handle, hd]
  · intro nthIn hnth fuel hfuel
    have hred : SubstituteCommand_handle S ⟨false, nthIn, true⟩ fuel ps =
        subMatchLoop S (some 1) false fuel ps 0 ps 0 false 0 := by
      cases hnth with
      | inl h => cases h; simp [SubstituteCommand_handle]
      | inr h => cases h; simp [SubstituteCommand_handle]
    rw [hred]
    cases fuel with
    | zero => omega
    | succ fuel =>
      rw [subMatchLoop]
      cases hs : S.search ps with
      | none => rfl
      | some p =>
        obtain ⟨ms, me⟩ := p
        have hms : ms = 0 := hanch ps ms me hs
        cases hms
        have hA : applyHere (some 1) 0 = true := by simp [applyHere]
        simp only [hA, if_true, Option.isSome_some, Bool.not_false, Bool.and_true, if_pos rfl]
        unfold applyAt newDatAt
        simp

/-- Witness for C2's amended theorem: the compiled command `s/^a/b/2` (no
`g`) on pattern space "aa" performs zero substitutions. -/
theorem anchored_substitute_semantics_witness :
    (∀ s ms me, anchSearch.search s = some (ms, me) → ms = 0) ∧ 1 < 2 ∧
    SubstituteCommand_handle anchSearch ⟨false, some 2, true⟩ 3 ['a', 'a']
      = some (['a', 'a'], false, 0) :=
  ⟨anchSearch_anchored, by omega,
    (anchored_substitute_semantics anchSearch ['a', 'a'] anchSearch_anchored).1 2 (by omega) 3⟩

/-- C3: the substitute command's matching loop terminates for every pattern
space, find pattern (any well-formed search), replacement and flag
combination: fuel `ps.length + 1` always completes the loop, and any
larger fuel computes the same result, so the fuel is an artifact of the
embedding, not a bound the source loop can exceed.  (The loop advances one
extra byte after a zero-width match and exits when the previous chunk was
empty, so each continued iteration strictly shrinks the examined suffix;
see `skip_measure` and `apply_measure`.) -/
theorem substitute_loop_terminates (S : ReSearch) (hwf : SearchWF S) (F : SubFlags)
    (ps : Bytes) :
    (SubstituteCommand_handle S F (ps.length + 1) ps).isSome = true ∧
    ∀ fuel, ps.length + 1 ≤ fuel →
      SubstituteCommand_handle S F fuel ps = SubstituteCommand_handle S F (ps.length + 1) ps := by
  unfold SubstituteCommand_handle
  cases hE : (F.only_first_match &&
      (match F.nth_match with
       | some n => (decide (n = 0) && !F.global_replace) || decide (n > 1)
       | none => false)) with
  | true =>
    simp [hE]
  | false =>
    simp only [hE, Bool.false_eq_true, if_false]
    constructor
    · have h := subMatchLoop_isSome S hwf
        (if (if F.only_first_match && F.nth_match.isSome then some 1 else F.nth_match).isNone
            && !F.global_replace then some 1
         else (if F.only_first_match && F.nth_match.isSome then some 1 else F.nth_match))
        F.global_replace (ps.length + 1) ps 0 0 false 0 (by simp)
      rw [List.drop_zero] at h
      exact h
    · intro fuel hfuel
      have h := subMatchLoop_fuel_irrel S hwf
        (if (if F.only_first_match && F.nth_match.isSome then some 1 else F.nth_match).isNone
            && !F.global_replace then some 1
         else (if F.only_first_match && F.nth_match.isSome then some 1 else F.nth_match))
        F.global_replace ps 0 0 0 false fuel (ps.length + 1) (by simp; omega) (by simp)
      rw [List.drop_zero] at h
      exact h

/-- Witness for C3: the loop for `s/am/sam;/g` on the example line
completes within the canonical fuel. -/
theorem substitute_loop_terminates_witness :
    SearchWF amSearch ∧
    (SubstituteCommand_handle amSearch ⟨true, none, false⟩ (exLine1.length + 1) exLine1).isSome
      = true :=
  ⟨amSearch_wf,
    (substitute_loop_terminates amSearch amSearch_wf ⟨true, none, false⟩ exLine1).1⟩

/-- C4 counterexample: the `c` (change) command does not end the current
cycle.  `ReplaceCommand._handle` sets no jump target (unlike `d`, which
sets the jump-to-end marker), so a command placed after `c` still
executes: running the two-command program `c world` then `p` on the record
"hello\n" writes "world\nworld\n" (the `p` print plus the end-of-cycle
flush), whereas ending the cycle right after `c` would write "world\n"
exactly once. -/
theorem change_command_does_not_end_cycle :
    (ReplaceCommand_handle "world".data
        { initWorkingData with pattern_space := "hello\n".data, line_number := 1 }).jump_to
      = none ∧
    (DeleteCommand_handle
        { initWorkingData with pattern_space := "hello\n".data, line_number := 1 }).jump_to
      = some JumpTo.toEnd ∧
    runOneCycle [SedCmd.replaceCmd "world".data, SedCmd.printCmd] "hello\n".data
      = some "world\nworld\n".data ∧
    ¬ ("world\nworld\n".data = "world\n".data) := by
  exact ⟨rfl, rfl, rfl, by decide⟩

/-- C4 (amended): on a matching line, the `c` (change) command replaces the
pattern space with the command's literal text, appending the record
separator exactly when the old pattern space ended with the separator; it
does not end the cycle: no jump target is set, and execution continues
with the following command. -/
theorem replace_command_semantics (txt : Bytes) (dat : WorkingData) :
    (ReplaceCommand_handle txt dat).pattern_space =
      (if dat.newline.isSuffixOf dat.pattern_space then txt ++ dat.newline else txt) ∧
    (ReplaceCommand_handle txt dat).jump_to = dat.jump_to ∧
    (ReplaceCommand_handle txt dat).pattern_modified = true ∧
    (ReplaceCommand_handle txt dat).file_modified = true ∧
    (ReplaceCommand_handle txt dat).output = dat.output := by
  unfold ReplaceCommand_handle WorkingData.setPattern
  cases h : dat.newline.isSuffixOf dat.pattern_space with
  | true => simp [h]
  | false => simp [h]

lemma runFileNumbers_spec (rs : List Bytes) : ∀ dat : WorkingData,
    (runFileNumbers dat rs).2 = List.range' (dat.line_number + 1) rs.length ∧
    (runFileNumbers dat rs).1.line_number = dat.line_number + rs.length := by
  induction rs with
  | nil => intro dat; simp [runFileNumbers]
  | cons r rs ih =>
    intro dat
    have h1 : (dat.next_line_with r).line_number = dat.line_number + 1 := by
      simp [WorkingData.next_line_with, WorkingData.flushAllData, WorkingData.flushInsert]
      cases dat.insert_space with
      | none =>
        simp
        cases dat.append_space with
        | none => simp
        | some a => simp
      | some i =>
        simp
        cases dat.append_space with
        | none => simp
        | some a => simp
    obtain ⟨ha, hb⟩ := ih (dat.next_line_with r)
    refine ⟨?_, ?_⟩
    · simp only [runFileNumbers, ha, h1, List.length_cons]
      rw [List.range'_succ]
    · simp only [runFileNumbers, hb, h1, List.length_cons]
      omega

lemma executeNumbers_spec (files : List (List Bytes)) : ∀ dat : WorkingData,
    (executeNumbers dat files).flatten =
      List.range' (dat.line_number + 1) (files.map List.length).sum ∧
    (executeNumbers dat files).map List.length = files.map List.length := by
  induction files with
  | nil => intro dat; simp [executeNumbers]
  | cons f fs ih =>
    intro dat
    have hset : (dat.set_in_file).line_number = dat.line_number := rfl
    obtain ⟨h1, h2⟩ := runFileNumbers_spec f dat.set_in_file
    obtain ⟨h3, h4⟩ := ih (runFileNumbers dat.set_in_file f).1
    refine ⟨?_, ?_⟩
    · simp only [executeNumbers, List.flatten_cons, List.map_cons, List.sum_cons]
      rw [h1, h3, h2, hset]
      have he : dat.line_number + f.length + 1 = dat.line_number + 1 + f.length := by omega
      rw [he, List.range'_append_1, Nat.add_comm f.length]
    · simp only [executeNumbers, List.map_cons]
      rw [h4, h1]
      simp

/-- C6 counterexample: the line number does not restart from 1 at the first
record of each file.  With two one-record input files, `Sed.execute` (one
`WorkingData` built before the file loop, `set_in_file` resetting only the
file-modified flag) numbers the second file's first record 2, not 1. -/
theorem line_number_continues_across_files :
    executeLineNumbers [["a\n".data], ["b\n".data]] = [[1], [2]] ∧
    ¬ executeLineNumbers [["a\n".data], ["b\n".data]] = [[1], [1]] := by
  constructor
  · rfl
  · decide

/-- C6 (amended): execution state is created once per run, not per file:
the line number is numbered continuously across all input files.  Over any
list of input files the observed numbers are exactly 1, 2, ... up to the
total record count, partitioned per file by each file's record count. -/
theorem execute_line_numbering (files : List (List Bytes)) :
    (executeLineNumbers files).flatten = List.range' 1 (files.map List.length).sum ∧
    (executeLineNumbers files).map List.length = files.map List.length := by
  have h := executeNumbers_spec files initWorkingData
  simpa [executeLineNumbers, initWorkingData] using h

lemma findSubstr_single : ∀ (c : Char) (s : Bytes) (i : Nat), findSubstr [c] s = some i →
    ∃ pre post, s = pre ++ c :: post ∧ c ∉ pre ∧ pre.length = i := by
  intro c s
  induction s with
  | nil => intro i h; simp [findSubstr] at h
  | cons x rest ih =>
    intro i h
    simp only [findSubstr] at h
    by_cases hpre : List.isPrefixOf [c] (x :: rest) = true
    · rw [if_pos hpre] at h
      cases h
      have hx : c = x := by
        simpa [List.isPrefixOf] using hpre
      exact ⟨[], rest, by simp [hx], by simp, rfl⟩
    · rw [if_neg hpre] at h
      cases hr : findSubstr [c] rest with
      | none => rw [hr] at h; cases h
      | some t =>
        rw [hr] at h
        cases h
        obtain ⟨pre, post, heq, hnotin, hlen⟩ := ih t hr
        have hx : ¬ c = x := by
          intro hc
          apply hpre
          simp [List.isPrefixOf, hc]
        refine ⟨x :: pre, post, by simp [heq], ?_, by simp [hlen]⟩
        simp only [List.mem_cons, not_or]
        exact ⟨hx, hnotin⟩

lemma findSubstr_single_none : ∀ (c : Char) (s : Bytes), findSubstr [c] s = none → c ∉ s := by
  intro c s
  induction s with
  | nil => intro h; simp
  | cons x rest ih =>
    intro h
    simp only [findSubstr] at h
    by_cases hpre : List.isPrefixOf [c] (x :: rest) = true
    · rw [if_pos hpre] at h; cases h
    · rw [if_neg hpre] at h
      cases hr : findSubstr [c] rest with
      | some t => rw [hr] at h; cases h
      | none =>
        have hx : ¬ c = x := by
          intro hc
          apply hpre
          simp [List.isPrefixOf, hc]
        simp only [List.mem_cons, not_or]
        exact ⟨hx, ih hr⟩

/-- C7 counterexample: with the two-byte record separator "\r\n", the `P`
command emits only through the first byte of the separator occurrence
(`dat.pattern_space[:loc+1]`, line 1197), not through the whole separator
sequence: on pattern space "ab\r\ncd" it emits "ab\r", while the prefix
through the first embedded separator sequence would be "ab\r\n". -/
theorem print_to_newline_multibyte_truncates :
    printToNewlineBytes ['\r', '\n'] "ab\r\ncd".data = "ab\r".data ∧
    ¬ printToNewlineBytes ['\r', '\n'] "ab\r\ncd".data = "ab\r\n".data := by
  exact ⟨rfl, by decide⟩

/-- C7 (amended): for a single-byte record separator the `P` command emits
exactly the prefix of the pattern space through its first embedded
separator, and when the pattern space contains no separator it emits the
whole pattern space with one separator appended; in general (any
separator length) the found case emits `ps[:loc+1]`, i.e. through the
first byte of the first separator occurrence only. -/
theorem print_to_newline_semantics (newline ps : Bytes) :
    (∀ c, newline = [c] →
      (∀ i, findSubstr newline ps = some i →
        ∃ pre post, ps = pre ++ c :: post ∧ c ∉ pre ∧
          printToNewlineBytes newline ps = pre ++ [c]) ∧
      (findSubstr newline ps = none →
        printToNewlineBytes newline ps = ps ++ [c] ∧ c ∉ ps)) ∧
    (∀ loc, findSubstr newline ps = some loc →
      printToNewlineBytes newline ps = List.take (loc + 1) ps) := by
  constructor
  · intro c hc
    cases hc
    constructor
    · intro i h
      obtain ⟨pre, post, heq, hnotin, hlen⟩ := findSubstr_single c ps i h
      refine ⟨pre, post, heq, hnotin, ?_⟩
      unfold printToNewlineBytes
      rw [h, heq]
      show List.take (i + 1) (pre ++ c :: post) = pre ++ [c]
      rw [List.take_append_eq_append_take]
      have h1 : i + 1 - pre.length = 1 := by omega
      have h2 : List.take (i + 1) pre = pre := by
        apply List.take_of_length_le
        omega
      rw [h1, h2]
      rfl
    · intro h
      unfold printToNewlineBytes
      rw [h]
      exact ⟨rfl, findSubstr_single_none c ps h⟩
  · intro loc h
    unfold printToNewlineBytes
    rw [h]

/-- Witness for C7's amended theorem at separator "\n" and pattern space
"ab\ncd". -/
theorem print_to_newline_semantics_witness :
    findSubstr ['\n'] "ab\ncd".data = some 2 ∧
    (∃ pre post, "ab\ncd".data = pre ++ '\n' :: post ∧ '\n' ∉ pre ∧
      printToNewlineBytes ['\n'] "ab\ncd".data = pre ++ ['\n']) :=
  ⟨by decide,
    ((print_to_newline_semantics ['\n'] "ab\ncd".data).1 '\n' rfl).1 2 (by decide)⟩

lemma scanNotIn_some_spec : ∀ (rem : Nat) (s cs : Bytes) (i j : Nat),
    scanNotIn s cs i rem = some j →
    i ≤ j ∧ j < s.length ∧ (∃ ch, s[j]? = some ch ∧ ch ∉ cs) ∧
      ∀ t, i ≤ t → t < j → ∀ ch, s[t]? = some ch → ch ∈ cs := by
  intro rem
  induction rem with
  | zero => intro s cs i j h; simp [scanNotIn] at h
  | succ rem ih =>
    intro s cs i j h
    cases hg : s[i]? with
    | none => simp [scanNotIn, hg] at h
    | some ch =>
      simp only [scanNotIn, hg] at h
      by_cases hin : ch ∈ cs
      · rw [if_pos hin] at h
        obtain ⟨h1, h2, h3, h4⟩ := ih s cs (i + 1) j h
        refine ⟨by omega, h2, h3, ?_⟩
        intro t ht1 ht2 ch2 hch2
        by_cases hti : t = i
        · cases hti
          rw [hg] at hch2
          cases hch2
          exact hin
        · exact h4 t (by omega) ht2 ch2 hch2
      · rw [if_neg hin] at h
        cases h
        have hlt : i < s.length := by
          rcases List.getElem?_eq_some_iff.mp hg with ⟨hl, _⟩
          exact hl
        exact ⟨Nat.le_refl i, hlt, ⟨ch, hg, hin⟩, fun t ht1 ht2 _ _ => by omega⟩

lemma scanNotIn_none_spec : ∀ (rem : Nat) (s cs : Bytes) (i : Nat),
    s.length ≤ i + rem → scanNotIn s cs i rem = none →
    ∀ t, i ≤ t → t < s.length → ∀ ch, s[t]? = some ch → ch ∈ cs := by
  intro rem
  induction rem with
  | zero => intro s cs i hcov h t ht1 ht2 ch hch; omega
  | succ rem ih =>
    intro s cs i hcov h t ht1 ht2 ch hch
    cases hg : s[i]? with
    | none =>
      have : s.length ≤ i := List.getElem?_eq_none_iff.mp hg
      omega
    | some ch0 =>
      simp only [scanNotIn, hg] at h
      by_cases hin : ch0 ∈ cs
      · rw [if_pos hin] at h
        by_cases hti : t = i
        · cases hti; rw [hg] at hch; cases hch; exact hin
        · exact ih s cs (i + 1) (by omega) h t (by omega) ht2 ch hch
      · rw [if_neg hin] at h; cases h

lemma scanIn_some_spec : ∀ (rem : Nat) (s cs : Bytes) (i j : Nat),
    scanIn s cs i rem = some j →
    i ≤ j ∧ j < s.length ∧ ∃ ch, s[j]? = some ch ∧ ch ∈ cs := by
  intro rem
  induction rem with
  | zero => intro s cs i j h; simp [scanIn] at h
  | succ rem ih =>
    intro s cs i j h
    cases hg : s[i]? with
    | none => simp [scanIn, hg] at h
    | some ch =>
      simp only [scanIn, hg] at h
      by_cases hin : ch ∈ cs
      · rw [if_pos hin] at h
        cases h
        have hlt : i < s.length := by
          rcases List.getElem?_eq_some_iff.mp hg with ⟨hl, _⟩
          exact hl
        exact ⟨Nat.le_refl i, hlt, ch, hg, hin⟩
      · rw [if_neg hin] at h
        obtain ⟨h1, h2, h3⟩ := ih s cs (i + 1) j h
        exact ⟨by omega, h2, h3⟩

/-- C10 counterexample: Cursor access is not total.  A slice access with
explicit bounds always raises (`val.start += offset` mutates an immutable
`slice`), modelled as `none`; and an `int` access at or past the string
end raises `IndexError` instead of returning a character: here position 2
of "ab" with subscript 0. -/
theorem cursor_access_not_total :
    StringParser.getItemSlice { s := "abc".data, pos := 1, mark := 0 } (some 0) (some 2)
      = none ∧
    StringParser.getItemInt { s := "ab".data, pos := 2, mark := 0 } 0 = none := by
  exact ⟨rfl, rfl⟩

/-- C10 (amended): in-range indexed access returns the character of the
string at the current position plus the subscript; a slice access raises
unless both bounds are absent, in which case it returns the whole
underlying string; and the scanning operations `advance_past` /
`advance_until` are total, never move the position past the string end,
and return an explicit found/not-found boolean: `true` means the new
position holds a character outside (for `advance_past`) or inside (for
`advance_until`) the character set — with all skipped characters inside
the set — and `false` means the scan stopped at the string end. -/
theorem cursor_access_and_scan_semantics (p : StringParser) (cs : Bytes) :
    (∀ v : Int, 0 ≤ v → p.getItemInt v = p.s[p.pos + v.toNat]?) ∧
    p.getItemSlice none none = some p.s ∧
    ((p.advance_past cs).2.pos ≤ p.s.length ∧ (p.advance_past cs).2.s = p.s) ∧
    ((p.advance_past cs).1 = true →
      p.pos ≤ (p.advance_past cs).2.pos ∧ (p.advance_past cs).2.pos < p.s.length ∧
      (∃ ch, p.s[(p.advance_past cs).2.pos]? = some ch ∧ ch ∉ cs) ∧
      ∀ t, p.pos ≤ t → t < (p.advance_past cs).2.pos → ∀ ch, p.s[t]? = some ch → ch ∈ cs) ∧
    ((p.advance_past cs).1 = false →
      (p.advance_past cs).2.pos = p.s.length ∧
      ∀ t, p.pos ≤ t → t < p.s.length → ∀ ch, p.s[t]? = some ch → ch ∈ cs) ∧
    ((p.advance_until cs).2.pos ≤ p.s.length ∧ (p.advance_until cs).2.s = p.s) ∧
    ((p.advance_until cs).1 = true →
      ∃ ch, p.s[(p.advance_until cs).2.pos]? = some ch ∧ ch ∈ cs) ∧
    ((p.advance_until cs).1 = false → (p.advance_until cs).2.pos = p.s.length) := by
  refine ⟨?_, rfl, ?_, ?_, ?_, ?_, ?_, ?_⟩
  · intro v hv
    unfold StringParser.getItemInt
    have h0 : (0 : Int) ≤ v + (p.pos : Int) := by omega
    rw [if_pos h0]
    have h1 : (v + (p.pos : Int)).toNat = p.pos + v.toNat := by omega
    rw [h1]
  · unfold StringParser.advance_past
    cases hs : scanNotIn p.s cs p.pos (p.s.length - p.pos) with
    | some i =>
      have hsp := scanNotIn_some_spec _ _ _ _ _ hs
      refine ⟨?_, rfl⟩
      show i ≤ p.s.length
      omega
    | none => exact ⟨Nat.le_refl _, rfl⟩
  · intro hfound
    unfold StringParser.advance_past at hfound ⊢
    cases hs : scanNotIn p.s cs p.pos (p.s.length - p.pos) with
    | some i =>
      obtain ⟨h1, h2, h3, h4⟩ := scanNotIn_some_spec _ _ _ _ _ hs
      exact ⟨h1, h2, h3, h4⟩
    | none => rw [hs] at hfound; cases hfound
  · intro hfound
    unfold StringParser.advance_past at hfound ⊢
    cases hs : scanNotIn p.s cs p.pos (p.s.length - p.pos) with
    | some i => rw [hs] at hfound; cases hfound
    | none =>
      refine ⟨rfl, ?_⟩
      exact scanNotIn_none_spec _ _ _ _ (by omega) hs
  · unfold StringParser.advance_until
    cases hs : scanIn p.s cs p.pos (p.s.length - p.pos) with
    | some i =>
      have hsp := scanIn_some_spec _ _ _ _ _ hs
      refine ⟨?_, rfl⟩
      show i ≤ p.s.length
      omega
    | none => exact ⟨Nat.le_refl _, rfl⟩
  · intro hfound
    unfold StringParser.advance_until at hfound ⊢
    cases hs : scanIn p.s cs p.pos (p.s.length - p.pos) with
    | some i =>
      obtain ⟨h1, h2, h3⟩ := scanIn_some_spec _ _ _ _ _ hs
      exact h3
    | none => rw [hs] at hfound; cases hfound
  · intro hfound
    unfold StringParser.advance_until at hfound ⊢
    cases hs : scanIn p.s cs p.pos (p.s.length - p.pos) with
    | some i => rw [hs] at hfound; cases hfound
    | none => rfl

/-- Witness for C10's amended theorem: in-range indexed access on a
concrete cursor. -/
theorem cursor_access_and_scan_semantics_witness :
    (0 : Int) ≤ 1 ∧
    StringParser.getItemInt (mkParser "ab".data) 1 = ("ab".data)[(mkParser "ab".data).pos + (1 : Int).toNat]? :=
  ⟨by omega, (cursor_access_and_scan_semantics (mkParser "ab".data) ['x']).1 1 (by omega)⟩

/-- C5 (code bug): a `W` command parsed from a script writes the FULL
pattern space, not the prefix through the first separator:
`WritePatternToNewlineCommand.from_string` constructs a
`WritePatternCommand` (sed.py line 1474), even though the class's own
`_handle` — which parsing never instantiates — implements the documented
prefix-to-first-separator behaviour.  Parsing `W out.txt` and executing
the result on pattern space "ab\ncd" (separator "\n") writes "ab\ncd",
while both the spec and `WritePatternToNewlineCommand._handle` prescribe
"ab\n". -/
theorem write_to_newline_parses_as_full_write :
    WritePatternToNewlineCommand_from_string (mkParser "W out.txt".data)
      = some (WriteCmd.patternCmd "out.txt".data) ∧
    WriteCmd.writtenBytes (WriteCmd.patternCmd "out.txt".data)
        { initWorkingData with pattern_space := "ab\ncd".data } = "ab\ncd".data ∧
    WriteCmd.writtenBytes (WriteCmd.patternToNewlineCmd "out.txt".data)
        { initWorkingData with pattern_space := "ab\ncd".data } = "ab\n".data ∧
    ¬ ("ab\ncd".data = "ab\n".data) := by
  exact ⟨rfl, rfl, rfl, by decide⟩

lemma readRecordLoop_ne_nil (sep : Bytes) :
    ∀ (input b endAcc : Bytes), b ≠ [] → (readRecordLoop sep b endAcc input).1 ≠ [] := by
  intro input
  induction input with
  | nil =>
    intro b endAcc hb
    unfold readRecordLoop
    by_cases he : endAcc = sep
    · rw [if_pos he]; exact hb
    · rw [if_neg he]; exact hb
  | cons x rest ih =>
    intro b endAcc hb
    unfold readRecordLoop
    by_cases he : endAcc = sep
    · rw [if_pos he]; exact hb
    · rw [if_neg he]
      apply ih
      by_cases hl : b.length < LINE_BYTE_LIMIT
      · rw [if_pos hl]; simp
      · rw [if_neg hl]; exact hb

lemma readRecordLoop_first_byte (sep : Bytes) (hsep : sep ≠ []) (x : Char) (rest : Bytes) :
    (readRecordLoop sep [] [] (x :: rest)).1 ≠ [] := by
  unfold readRecordLoop
  rw [if_neg (by simpa using (Ne.symm hsep))]
  apply readRecordLoop_ne_nil
  simp [LINE_BYTE_LIMIT]

/-- C8 counterexample: an input that is immediately at end-of-input with no
bytes does NOT always yield the end-of-records signal: the stdin source
returns one empty record first (the `if b:` guard of the file source, line
259, has no counterpart in `StdinIterable.__next__`), and only the next
call raises `StopIteration`.  The file source does signal end directly. -/
theorem stdin_empty_input_yields_empty_record :
    stdinNext ['\n'] ([], false) = (some [], ([], true)) ∧
    ¬ (some ([] : Bytes) = (none : Option Bytes)) ∧
    autoFileNext ['\n'] (some []) = (none, none) := by
  exact ⟨rfl, by decide, rfl⟩

/-- C8 (amended): a final record at true end-of-input lacking a trailing
separator is returned once, non-empty, by both line sources; an input
immediately at end-of-input yields the end-of-records signal for the file
source, while the stdin source first returns one empty record (setting its
eof flag) and signals end-of-records on the next call. -/
theorem line_source_end_of_input (sep : Bytes) (hsep : sep ≠ []) :
    (∀ x rest, ∃ b st, autoFileNext sep (some (x :: rest)) = (some b, st) ∧ b ≠ []) ∧
    (∀ x rest, ∃ b st, stdinNext sep (x :: rest, false) = (some b, st) ∧ b ≠ []) ∧
    autoFileNext sep (some []) = (none, none) ∧
    stdinNext sep ([], false) = (some [], ([], true)) ∧
    (∀ input, stdinNext sep (input, true) = (none, (input, true))) := by
  have hr0 : readRecordLoop sep [] [] [] = ([], [], true) := by
    unfold readRecordLoop
    rw [if_neg (Ne.symm hsep)]
  refine ⟨?_, ?_, ?_, ?_, ?_⟩
  · intro x rest
    have hb := readRecordLoop_first_byte sep hsep x rest
    simp only [autoFileNext]
    rw [if_pos hb]
    exact ⟨_, _, rfl, hb⟩
  · intro x rest
    have hb := readRecordLoop_first_byte sep hsep x rest
    simp only [stdinNext]
    exact ⟨_, _, rfl, hb⟩
  · simp only [autoFileNext]
    rw [hr0]
    simp
  · simp only [stdinNext]
    rw [hr0]
    simp
  · intro input
    simp [stdinNext]

/-- Witness for C8's amended theorem at separator "\n" and input "ab"
(no trailing separator): one non-empty record. -/
theorem line_source_end_of_input_witness :
    (['\n'] : Bytes) ≠ [] ∧
    (∃ b st, autoFileNext ['\n'] (some ('a' :: "b".data)) = (some b, st) ∧ b ≠ []) :=
  ⟨by decide, (line_source_end_of_input ['\n'] (by decide)).1 'a' "b".data⟩

lemma parseScriptLinesAux_formatted : ∀ (ls : List Bytes) (i : Nat) (acc : List PCmd)
    (n p : Nat),
    parseScriptLinesAux i acc ls = Except.error (ScriptErr.formatted n p) →
    ∃ pre fail rest, ls = pre ++ fail :: rest ∧ n = i + pre.length + 1 ∧
      (∃ acc2 q k, parseLineLoop acc2 (fail.length + 1) (mkParser fail)
          = LineResult.parseErr q k ∧ p = q + 1) ∧
      ∀ line ∈ pre, ∃ acc3 acc4,
        parseLineLoop acc3 (line.length + 1) (mkParser line) = LineResult.okLine acc4 := by
  intro ls
  induction ls with
  | nil => intro i acc n p h; simp [parseScriptLinesAux] at h
  | cons line rest ih =>
    intro i acc n p h
    cases hl : parseLineLoop acc (line.length + 1) (mkParser line) with
    | okLine acc2 =>
      simp only [parseScriptLinesAux, hl] at h
      obtain ⟨pre, fail, rest2, h1, h2, h3, h4⟩ := ih (i + 1) acc2 n p h
      refine ⟨line :: pre, fail, rest2, by simp [h1], by simp; omega, h3, ?_⟩
      intro l hl2
      rcases List.mem_cons.mp hl2 with hh | hh
      · cases hh
        exact ⟨acc, acc2, hl⟩
      · exact h4 l hh
    | parseErr q k =>
      simp only [parseScriptLinesAux, hl] at h
      have hn : n = i + 1 ∧ p = q + 1 := by
        cases h
        exact ⟨rfl, rfl⟩
      refine ⟨[], line, rest, by simp, by simp [hn.1], ⟨acc, q, k, hl, hn.2⟩, by simp⟩
    | indexError => simp [parseScriptLinesAux, hl] at h
    | unmodeledCommand => simp [parseScriptLinesAux, hl] at h
    | fuelOut => simp [parseScriptLinesAux, hl] at h

/-- C9 counterexample: for the script `p;x` (one line, two
semicolon-separated expressions, the second invalid) the reported pair is
expression #1, char 3 — the line number and the offset within the whole
line — whereas the claim predicts expression #2, char 1 (the index of the
`;`-delimited expression and the offset within that expression). -/
theorem parse_error_counts_lines_not_expressions :
    parseScriptLines ["p;x".data] = Except.error (ScriptErr.formatted 1 3) ∧
    ((1 : Nat), (3 : Nat)) ≠ ((2 : Nat), (1 : Nat)) := by
  exact ⟨rfl, by decide⟩

/-- C9 (amended): when compilation fails with a `SedParsingException`, the
reported message is `Error at expression #<n>, char <pos>` where `<n>` is
the 1-based index of the failing NEWLINE-delimited script line (all `;`
-separated expressions on one line share the same `<n>`; every earlier
line parsed without error) and `<pos>` is the 1-based character offset
within that whole line at the point of failure. -/
theorem parse_error_position_semantics (ls : List Bytes) (n p : Nat)
    (h : parseScriptLines ls = Except.error (ScriptErr.formatted n p)) :
    ∃ pre fail rest, ls = pre ++ fail :: rest ∧ n = pre.length + 1 ∧
      (∃ acc2 q k, parseLineLoop acc2 (fail.length + 1) (mkParser fail)
          = LineResult.parseErr q k ∧ p = q + 1) ∧
      ∀ line ∈ pre, ∃ acc3 acc4,
        parseLineLoop acc3 (line.length + 1) (mkParser line) = LineResult.okLine acc4 := by
  obtain ⟨pre, fail, rest, h1, h2, h3, h4⟩ := parseScriptLinesAux_formatted ls 0 [] n p h
  exact ⟨pre, fail, rest, h1, by omega, h3, h4⟩

/-- Witness for C9's amended theorem at the concrete failing script
`p;x`. -/
theorem parse_error_position_semantics_witness :
    parseScriptLines ["p;x".data] = Except.error (ScriptErr.formatted 1 3) ∧
    (∃ pre fail rest, ["p;x".data] = pre ++ fail :: rest ∧ 1 = pre.length + 1 ∧
      (∃ acc2 q k, parseLineLoop acc2 (fail.length + 1) (mkParser fail)
          = LineResult.parseErr q k ∧ 3 = q + 1) ∧
      ∀ line ∈ pre, ∃ acc3 acc4,
        parseLineLoop acc3 (line.length + 1) (mkParser line) = LineResult.okLine acc4) :=
  ⟨rfl, parse_error_position_semantics ["p;x".data] 1 3 rfl⟩
